import Mathlib

/-!
Shallow embedding of the drawing core of doodle-do (`src/App.tsx`): the
integer Bresenham line rasterizer (`plotLine` with its two helpers), the
stroke history state driven by `handleUndo` / `handleRedo` / `handleClear`
and the pointer-up commit, the per-stroke draw-state derivation performed
by `redrawCanvas`, and the pointer event handlers.  The theorems at the end
of the file check the specification's claims against these definitions.
-/

namespace DoodleDo

/-- Integer lattice point as produced by the Bresenham rasterizer
(the `Point` interface of App.tsx, holding integer pixel coordinates). -/
structure IPoint where
  x : Int
  y : Int
deriving DecidableEq, Repr

/-- Helper loop of `plotLineLow` (App.tsx lines 689-715): `n` is the number
of remaining iterations of the `for (let x = x0; x <= x1; x++)` loop; the
state carries the current `x`, `y` and decision variable `D`. -/
def plotLineLowAux (dy dx yi : Int) : Int → Int → Int → Nat → List IPoint
  | _, _, _, 0 => []
  | x, y, D, n + 1 =>
    ⟨x, y⟩ ::
      (if 0 < D then plotLineLowAux dy dx yi (x + 1) (y + yi) (D + 2 * (dy - dx)) n
       else plotLineLowAux dy dx yi (x + 1) y (D + 2 * dy) n)

/-- `plotLineLow` of App.tsx (lines 689-715): x-major Bresenham step,
assuming the caller arranged `x0 ≤ x1`. -/
def plotLineLow (x0 y0 x1 y1 : Int) : List IPoint :=
  let dx := x1 - x0
  let dy0 := y1 - y0
  let yi : Int := if dy0 < 0 then -1 else 1
  let dy := if dy0 < 0 then -dy0 else dy0
  plotLineLowAux dy dx yi x0 y0 (2 * dy - dx) (x1 + 1 - x0).toNat

/-- Helper loop of `plotLineHigh` (App.tsx lines 717-743), mirroring
`plotLineLowAux` with the roles of the axes swapped. -/
def plotLineHighAux (dx dy xi : Int) : Int → Int → Int → Nat → List IPoint
  | _, _, _, 0 => []
  | x, y, D, n + 1 =>
    ⟨x, y⟩ ::
      (if 0 < D then plotLineHighAux dx dy xi (x + xi) (y + 1) (D + 2 * (dx - dy)) n
       else plotLineHighAux dx dy xi x (y + 1) (D + 2 * dx) n)

/-- `plotLineHigh` of App.tsx (lines 717-743): y-major Bresenham step,
assuming the caller arranged `y0 ≤ y1`. -/
def plotLineHigh (x0 y0 x1 y1 : Int) : List IPoint :=
  let dy := y1 - y0
  let dx0 := x1 - x0
  let xi : Int := if dx0 < 0 then -1 else 1
  let dx := if dx0 < 0 then -dx0 else dx0
  plotLineHighAux dx dy xi x0 y0 (2 * dx - dy) (y1 + 1 - y0).toNat

/-- `plotLine` of App.tsx (lines 745-768): chooses the iteration axis by
comparing `|y1 - y0|` with `|x1 - x0|` and normalizes the direction along
the major axis. -/
def plotLine (x0 y0 x1 y1 : Int) : List IPoint :=
  if (y1 - y0).natAbs < (x1 - x0).natAbs then
    if x0 > x1 then plotLineLow x1 y1 x0 y0 else plotLineLow x0 y0 x1 y1
  else
    if y0 > y1 then plotLineHigh x1 y1 x0 y0 else plotLineHigh x0 y0 x1 y1

/-- Two lattice points are within Chebyshev distance one of each other
(8-connectivity of adjacent rasterized pixels). -/
def chebAdj (p q : IPoint) : Prop :=
  (q.x - p.x).natAbs ≤ 1 ∧ (q.y - p.y).natAbs ≤ 1

lemma lowAux_length (dy dx yi : Int) :
    ∀ (n : Nat) (x y D : Int), (plotLineLowAux dy dx yi x y D n).length = n := by
  intro n
  induction n with
  | zero => intro x y D; simp [plotLineLowAux]
  | succ m ih =>
    intro x y D
    by_cases h : 0 < D <;> simp [plotLineLowAux, h, ih]

lemma lowAux_succ (dy dx yi x y D : Int) (n : Nat) :
    plotLineLowAux dy dx yi x y D (n + 1) =
      ⟨x, y⟩ ::
        (if 0 < D then plotLineLowAux dy dx yi (x + 1) (y + yi) (D + 2 * (dy - dx)) n
         else plotLineLowAux dy dx yi (x + 1) y (D + 2 * dy) n) := by
  simp [plotLineLowAux]

lemma lowAux_head (dy dx yi x y D : Int) (n : Nat) :
    (plotLineLowAux dy dx yi x y D (n + 1)).head? = some ⟨x, y⟩ := by
  rw [lowAux_succ]
  rfl

lemma lowAux_chain (dy dx yi : Int) (hyi : yi = 1 ∨ yi = -1) :
    ∀ (n : Nat) (x y D : Int), List.Chain' chebAdj (plotLineLowAux dy dx yi x y D n) := by
  intro n
  induction n with
  | zero => intro x y D; simp [plotLineLowAux]
  | succ m ih =>
    intro x y D
    rw [lowAux_succ, List.chain'_cons']
    refine ⟨?_, ?_⟩
    · intro b hb
      have hb2 : b = ⟨x + 1, y + yi⟩ ∨ b = ⟨x + 1, y⟩ := by
        split at hb
        · cases m with
          | zero => simp [plotLineLowAux] at hb
          | succ k => rw [lowAux_head] at hb; left; exact (Option.mem_some_iff.mp hb).symm
        · cases m with
          | zero => simp [plotLineLowAux] at hb
          | succ k => rw [lowAux_head] at hb; right; exact (Option.mem_some_iff.mp hb).symm
      rcases hb2 with rfl | rfl
      · rcases hyi with rfl | rfl <;>
          exact ⟨by simp, by simp⟩
      · exact ⟨by simp, by simp⟩
    · split <;> exact ih _ _ _

lemma getLast?_cons_ne_nil {α : Type} (a : α) {l : List α} (h : l ≠ []) :
    (a :: l).getLast? = l.getLast? := by
  cases l with
  | nil => exact absurd rfl h
  | cons b t => simp [List.getLast?_cons_cons]

/-- Decision-variable invariant of the x-major Bresenham loop: with `j`
further iterations to go, `c` pending minor-axis steps, and `D` tied to `j`
and `c` by the stated relation, the loop ends at `⟨x + j, y + yi * c⟩`. -/
lemma lowAux_getLast (dy dx yi : Int) (hdy : 0 ≤ dy) (hdd : dy ≤ dx) :
    ∀ (j : Nat) (x y D c : Int), 0 ≤ c → c ≤ dy →
      D = 2 * ((dx - j) + 1) * dy - (2 * (dy - c) + 1) * dx →
      2 * (dy - dx) < D → D ≤ 2 * dy →
      (plotLineLowAux dy dx yi x y D (j + 1)).getLast? = some ⟨x + j, y + yi * c⟩ := by
  intro j
  induction j with
  | zero =>
    intro x y D c hc0 hc1 hD hDl hDu
    have hD2 : D = 2 * dy + 2 * (c * dx) - dx := by rw [hD]; push_cast; ring
    have hc : c = 0 := by
      rcases lt_or_le c 1 with h | h
      · omega
      · have hdx : 0 < dx := by
          rcases lt_or_le 0 dx with h2 | h2
          · exact h2
          · exfalso
            have : dy = 0 := le_antisymm (by omega) hdy
            have : c ≤ 0 := by omega
            omega
        have : dx ≤ c * dx := le_mul_of_one_le_left hdx.le h
        omega
    subst hc
    have htail :
        (if 0 < D then plotLineLowAux dy dx yi (x + 1) (y + yi) (D + 2 * (dy - dx)) 0
         else plotLineLowAux dy dx yi (x + 1) y (D + 2 * dy) 0) = [] := by
      split <;> simp [plotLineLowAux]
    rw [lowAux_succ, htail]
    simp
  | succ m ih =>
    intro x y D c hc0 hc1 hD hDl hDu
    have hD2 : D = 2 * (c * dx) - 2 * ((m : Int) * dy) - dx := by
      rw [hD]; push_cast; ring
    rw [lowAux_succ]
    by_cases hpos : 0 < D
    · rw [if_pos hpos]
      have hne : plotLineLowAux dy dx yi (x + 1) (y + yi) (D + 2 * (dy - dx)) (m + 1) ≠ [] := by
        intro hcon
        have := lowAux_length dy dx yi (m + 1) (x + 1) (y + yi) (D + 2 * (dy - dx))
        rw [hcon] at this
        simp at this
      rw [getLast?_cons_ne_nil _ hne]
      have hdypos : 0 < dy := by omega
      have hdx : 0 < dx := lt_of_lt_of_le hdypos hdd
      have hmdy : 0 ≤ (m : Int) * dy := mul_nonneg (by positivity) hdy
      have hc1' : 1 ≤ c := by
        rcases lt_or_le c 1 with h | h
        · exfalso
          have hc : c = 0 := by omega
          rw [hc] at hD2
          simp at hD2
          omega
        · exact h
      have hstep := ih (x + 1) (y + yi) (D + 2 * (dy - dx)) (c - 1)
        (by omega) (by omega)
        (by rw [hD]; push_cast; ring)
        (by omega) (by omega)
      rw [hstep]
      congr 1
      have hx : x + 1 + (m : Int) = x + ((m : Nat) + 1 : Nat) := by push_cast; ring
      have hy : y + yi + yi * (c - 1) = y + yi * c := by ring
      rw [IPoint.mk.injEq]
      constructor
      · push_cast; ring
      · exact hy
    · rw [if_neg hpos]
      have hne : plotLineLowAux dy dx yi (x + 1) y (D + 2 * dy) (m + 1) ≠ [] := by
        intro hcon
        have := lowAux_length dy dx yi (m + 1) (x + 1) y (D + 2 * dy)
        rw [hcon] at this
        simp at this
      rw [getLast?_cons_ne_nil _ hne]
      have hstep := ih (x + 1) y (D + 2 * dy) c hc0 hc1
        (by rw [hD]; push_cast; ring)
        (by omega) (by omega)
      rw [hstep]
      congr 1
      rw [IPoint.mk.injEq]
      constructor
      · push_cast; ring
      · rfl

lemma plotLineLow_length (x0 y0 x1 y1 : Int) :
    (plotLineLow x0 y0 x1 y1).length = (x1 + 1 - x0).toNat := by
  unfold plotLineLow
  exact lowAux_length _ _ _ _ _ _ _

lemma plotLineLow_head (x0 y0 x1 y1 : Int) (h : x0 ≤ x1) :
    (plotLineLow x0 y0 x1 y1).head? = some ⟨x0, y0⟩ := by
  unfold plotLineLow
  obtain ⟨n, hn⟩ : ∃ n, (x1 + 1 - x0).toNat = n + 1 := ⟨(x1 - x0).toNat, by omega⟩
  rw [hn]
  exact lowAux_head _ _ _ _ _ _ _

lemma plotLineLow_chain (x0 y0 x1 y1 : Int) :
    List.Chain' chebAdj (plotLineLow x0 y0 x1 y1) := by
  unfold plotLineLow
  apply lowAux_chain
  split
  · right; rfl
  · left; rfl

lemma plotLineLow_getLast (x0 y0 x1 y1 : Int)
    (h : (y1 - y0).natAbs ≤ (x1 - x0).natAbs) (hx : x0 ≤ x1) :
    (plotLineLow x0 y0 x1 y1).getLast? = some ⟨x1, y1⟩ := by
  unfold plotLineLow
  rcases eq_or_lt_of_le hx with rfl | hlt
  · have hy : y1 = x0 + (y1 - x0) := by ring
    have hyy : y1 - y0 = 0 := by omega
    have hy01 : y0 = y1 := by omega
    subst hy01
    obtain hn : (x0 + 1 - x0).toNat = 0 + 1 := by omega
    rw [hn, lowAux_succ]
    have htail :
        (if 0 < 2 * (if y0 - y0 < 0 then -(y0 - y0) else y0 - y0) - (x0 - x0) then
           plotLineLowAux (if y0 - y0 < 0 then -(y0 - y0) else y0 - y0) (x0 - x0)
             (if y0 - y0 < 0 then -1 else 1) (x0 + 1) (y0 + if y0 - y0 < 0 then -1 else 1)
             (2 * (if y0 - y0 < 0 then -(y0 - y0) else y0 - y0) - (x0 - x0) +
               2 * ((if y0 - y0 < 0 then -(y0 - y0) else y0 - y0) - (x0 - x0))) 0
         else
           plotLineLowAux (if y0 - y0 < 0 then -(y0 - y0) else y0 - y0) (x0 - x0)
             (if y0 - y0 < 0 then -1 else 1) (x0 + 1) y0
             (2 * (if y0 - y0 < 0 then -(y0 - y0) else y0 - y0) - (x0 - x0) +
               2 * (if y0 - y0 < 0 then -(y0 - y0) else y0 - y0)) 0) = [] := by
      split <;> simp [plotLineLowAux]
    rw [htail]
    simp
  · have hdxpos : 0 < x1 - x0 := by omega
    have hn : (x1 + 1 - x0).toNat = (x1 - x0).toNat + 1 := by omega
    rw [hn]
    set dy0 := y1 - y0 with hdy0
    set dy : Int := if dy0 < 0 then -dy0 else dy0 with hdy
    set yi : Int := if dy0 < 0 then -1 else 1 with hyi
    have hdynn : 0 ≤ dy := by rw [hdy]; split <;> omega
    have hdyle : dy ≤ x1 - x0 := by
      have habs : dy = (y1 - y0).natAbs := by rw [hdy, hdy0]; split <;> omega
      omega
    have hcast : ((x1 - x0).toNat : Int) = x1 - x0 := by omega
    have hlast := lowAux_getLast dy (x1 - x0) yi hdynn hdyle ((x1 - x0).toNat)
      x0 y0 (2 * dy - (x1 - x0)) dy hdynn le_rfl
      (by rw [hcast]; ring) (by omega) (by omega)
    rw [hlast]
    congr 1
    rw [IPoint.mk.injEq]
    constructor
    · omega
    · have : yi * dy = dy0 := by rw [hyi, hdy]; split <;> ring
      omega

/-- Coordinate swap relating the two Bresenham helpers. -/
def swapPt (p : IPoint) : IPoint := ⟨p.y, p.x⟩

lemma highAux_eq (dx dy xi : Int) :
    ∀ (n : Nat) (x y D : Int),
      plotLineHighAux dx dy xi x y D n = (plotLineLowAux dx dy xi y x D n).map swapPt := by
  intro n
  induction n with
  | zero => intro x y D; simp [plotLineHighAux, plotLineLowAux]
  | succ m ih =>
    intro x y D
    by_cases h : 0 < D <;> simp [plotLineHighAux, plotLineLowAux, h, ih, swapPt]

lemma plotLineHigh_eq (x0 y0 x1 y1 : Int) :
    plotLineHigh x0 y0 x1 y1 = (plotLineLow y0 x0 y1 x1).map swapPt := by
  unfold plotLineHigh plotLineLow
  exact highAux_eq _ _ _ _ _ _ _

lemma plotLineHigh_length (x0 y0 x1 y1 : Int) :
    (plotLineHigh x0 y0 x1 y1).length = (y1 + 1 - y0).toNat := by
  rw [plotLineHigh_eq, List.length_map, plotLineLow_length]

lemma plotLineHigh_head (x0 y0 x1 y1 : Int) (h : y0 ≤ y1) :
    (plotLineHigh x0 y0 x1 y1).head? = some ⟨x0, y0⟩ := by
  rw [plotLineHigh_eq, List.head?_map, plotLineLow_head y0 x0 y1 x1 h]
  rfl

lemma plotLineHigh_getLast (x0 y0 x1 y1 : Int)
    (h : (x1 - x0).natAbs ≤ (y1 - y0).natAbs) (hy : y0 ≤ y1) :
    (plotLineHigh x0 y0 x1 y1).getLast? = some ⟨x1, y1⟩ := by
  rw [plotLineHigh_eq, List.getLast?_map, plotLineLow_getLast y0 x0 y1 x1 h hy]
  rfl

lemma chebAdj_swap (p q : IPoint) (h : chebAdj p q) : chebAdj (swapPt p) (swapPt q) :=
  ⟨h.2, h.1⟩

lemma plotLineHigh_chain (x0 y0 x1 y1 : Int) :
    List.Chain' chebAdj (plotLineHigh x0 y0 x1 y1) := by
  rw [plotLineHigh_eq]
  exact (List.chain'_map swapPt).mpr
    (List.Chain'.imp chebAdj_swap (plotLineLow_chain y0 x0 y1 x1))

lemma list_eq_singleton {α : Type} {l : List α} {p : α}
    (h1 : l.length = 1) (h2 : l.head? = some p) : l = [p] := by
  cases l with
  | nil => simp at h2
  | cons a t =>
    cases t with
    | nil =>
      simp only [List.head?_cons, Option.some.injEq] at h2
      rw [h2]
    | cons b u => simp at h1

/-- C1: for all integer inputs, `plotLine` returns a sequence whose
consecutive points are within Chebyshev distance 1 (8-connected), whose
first and last points are the two endpoints up to reordering, and whose
length is at least `max |dx| |dy| + 1`. -/
theorem plotLine_bresenham_coverage (x0 y0 x1 y1 : Int) :
    List.Chain' chebAdj (plotLine x0 y0 x1 y1) ∧
    (((plotLine x0 y0 x1 y1).head? = some ⟨x0, y0⟩ ∧
      (plotLine x0 y0 x1 y1).getLast? = some ⟨x1, y1⟩) ∨
     ((plotLine x0 y0 x1 y1).head? = some ⟨x1, y1⟩ ∧
      (plotLine x0 y0 x1 y1).getLast? = some ⟨x0, y0⟩)) ∧
    max (x1 - x0).natAbs (y1 - y0).natAbs + 1 ≤ (plotLine x0 y0 x1 y1).length := by
  unfold plotLine
  by_cases h : (y1 - y0).natAbs < (x1 - x0).natAbs
  · rw [if_pos h]
    by_cases hx : x0 > x1
    · rw [if_pos hx]
      refine ⟨plotLineLow_chain _ _ _ _,
        Or.inr ⟨plotLineLow_head _ _ _ _ (by omega),
          plotLineLow_getLast _ _ _ _ (by omega) (by omega)⟩, ?_⟩
      rw [plotLineLow_length]
      omega
    · rw [if_neg hx]
      refine ⟨plotLineLow_chain _ _ _ _,
        Or.inl ⟨plotLineLow_head _ _ _ _ (by omega),
          plotLineLow_getLast _ _ _ _ (by omega) (by omega)⟩, ?_⟩
      rw [plotLineLow_length]
      omega
  · rw [if_neg h]
    by_cases hy : y0 > y1
    · rw [if_pos hy]
      refine ⟨plotLineHigh_chain _ _ _ _,
        Or.inr ⟨plotLineHigh_head _ _ _ _ (by omega),
          plotLineHigh_getLast _ _ _ _ (by omega) (by omega)⟩, ?_⟩
      rw [plotLineHigh_length]
      omega
    · rw [if_neg hy]
      refine ⟨plotLineHigh_chain _ _ _ _,
        Or.inl ⟨plotLineHigh_head _ _ _ _ (by omega),
          plotLineHigh_getLast _ _ _ _ (by omega) (by omega)⟩, ?_⟩
      rw [plotLineHigh_length]
      omega

/-- C9: `plotLine` on coinciding endpoints yields the single point, and
`plotLine 0 0 10 0` yields exactly the eleven unit-spaced points of the
horizontal segment, in order. -/
theorem plotLine_degenerate_and_horizontal :
    (∀ x y : Int, plotLine x y x y = [⟨x, y⟩]) ∧
    plotLine 0 0 10 0 =
      [⟨0, 0⟩, ⟨1, 0⟩, ⟨2, 0⟩, ⟨3, 0⟩, ⟨4, 0⟩, ⟨5, 0⟩,
        ⟨6, 0⟩, ⟨7, 0⟩, ⟨8, 0⟩, ⟨9, 0⟩, ⟨10, 0⟩] := by
  constructor
  · intro x y
    have hbranch : plotLine x y x y = plotLineHigh x y x y := by
      unfold plotLine
      rw [if_neg (show ¬ (y - y).natAbs < (x - x).natAbs by omega),
        if_neg (show ¬ y > y by omega)]
    have hlen : (plotLine x y x y).length = 1 := by
      rw [hbranch, plotLineHigh_length]
      omega
    have hhead : (plotLine x y x y).head? = some ⟨x, y⟩ := by
      rw [hbranch]
      exact plotLineHigh_head x y x y le_rfl
    exact list_eq_singleton hlen hhead
  · decide

/-- A point with rational coordinates, modelling the JS `number` device
pixel coordinates stored in strokes. -/
structure QPoint where
  x : ℚ
  y : ℚ
deriving DecidableEq, Repr

/-- The `Tool` union type of App.tsx line 36. -/
inductive Tool where
  | pen
  | highlighter
  | eraser
deriving DecidableEq, Repr

/-- The `Stroke` interface of App.tsx lines 38-44. -/
structure Stroke where
  points : List QPoint
  color : String
  tool : Tool
  lineWidth : ℚ
  opacity : ℚ
deriving DecidableEq, Repr

/-- The undo/redo state of `DrawingCanvas`: the `strokes` array and the
`currentStrokeIndex` cursor (App.tsx lines 499-500; the index starts at -1
and `activeCount = currentStrokeIndex + 1`). -/
structure HistoryState where
  strokes : List Stroke
  currentStrokeIndex : Int
deriving DecidableEq, Repr

/-- JavaScript `Array.prototype.slice(0, e)`: a negative end counts from
the end of the array, and the result is clamped to the array bounds. -/
def jsSliceTo {α : Type} (l : List α) (e : Int) : List α :=
  if e < 0 then l.take ((l.length : Int) + e).toNat else l.take e.toNat

/-- `handleUndo` of App.tsx lines 603-607. -/
def handleUndo (h : HistoryState) : HistoryState :=
  if 0 ≤ h.currentStrokeIndex then ⟨h.strokes, h.currentStrokeIndex - 1⟩ else h

/-- `handleRedo` of App.tsx lines 609-613. -/
def handleRedo (h : HistoryState) : HistoryState :=
  if h.currentStrokeIndex < (h.strokes.length : Int) - 1 then
    ⟨h.strokes, h.currentStrokeIndex + 1⟩
  else h

/-- `handleClear` of App.tsx lines 615-622 (history part: empty the
strokes array and reset the cursor to -1). -/
def handleClear (_h : HistoryState) : HistoryState := ⟨[], -1⟩

/-- The history update performed by `handlePointerUp` when a stroke is
committed (App.tsx lines 956-961): truncate to the active prefix via
`slice(0, currentStrokeIndex + 1)`, append the new stroke, and point the
cursor at the appended stroke. -/
def commitStroke (h : HistoryState) (s : Stroke) : HistoryState :=
  let newStrokes := jsSliceTo h.strokes (h.currentStrokeIndex + 1) ++ [s]
  ⟨newStrokes, (newStrokes.length : Int) - 1⟩

/-- The active prefix rendered by `redrawCanvas`
(`strokes.slice(0, currentStrokeIndex + 1)`, App.tsx line 556). -/
def activeStrokes (h : HistoryState) : List Stroke :=
  jsSliceTo h.strokes (h.currentStrokeIndex + 1)

/-- One history-mutating operation of the drawing app. -/
inductive HistOp where
  | append (s : Stroke)
  | undo
  | redo
  | clear
deriving Repr

/-- Apply one history operation. -/
def execOp (h : HistoryState) : HistOp → HistoryState
  | .append s => commitStroke h s
  | .undo => handleUndo h
  | .redo => handleRedo h
  | .clear => handleClear h

/-- The initial history: no strokes, cursor -1 (App.tsx lines 499-500). -/
def initialHistory : HistoryState := ⟨[], -1⟩

/-- Run a sequence of history operations from the empty history. -/
def execOps (ops : List HistOp) : HistoryState :=
  ops.foldl execOp initialHistory

/-- The history bounds invariant: `-1 ≤ currentStrokeIndex ≤ length - 1`,
i.e. `0 ≤ activeCount ≤ entries.length`. -/
def histInv (h : HistoryState) : Prop :=
  -1 ≤ h.currentStrokeIndex ∧ h.currentStrokeIndex ≤ (h.strokes.length : Int) - 1

lemma execOp_inv {h : HistoryState} (hh : histInv h) (op : HistOp) :
    histInv (execOp h op) := by
  obtain ⟨h1, h2⟩ := hh
  cases op with
  | append s =>
    simp only [execOp, commitStroke, histInv, List.length_append, List.length_singleton]
    push_cast
    omega
  | undo =>
    simp only [execOp, handleUndo, histInv]
    split <;> (try dsimp only) <;> omega
  | redo =>
    simp only [execOp, handleRedo, histInv]
    split <;> (try dsimp only) <;> omega
  | clear =>
    simp only [execOp, handleClear, histInv]
    norm_num

lemma foldl_execOp_inv (ops : List HistOp) :
    ∀ h : HistoryState, histInv h → histInv (ops.foldl execOp h) := by
  induction ops with
  | nil => intro h hh; exact hh
  | cons op rest ih => intro h hh; exact ih _ (execOp_inv hh op)

/-- C2: starting from the empty history, every sequence of append, undo,
redo and clear operations leaves `0 ≤ activeCount ≤ entries.length`
(equivalently `-1 ≤ currentStrokeIndex ≤ strokes.length - 1`). -/
theorem history_bounds_invariant (ops : List HistOp) :
    0 ≤ (execOps ops).currentStrokeIndex + 1 ∧
    (execOps ops).currentStrokeIndex + 1 ≤ ((execOps ops).strokes.length : Int) := by
  have hinit : histInv initialHistory := by
    unfold histInv initialHistory
    norm_num
  have hres := foldl_execOp_inv ops initialHistory hinit
  unfold execOps
  unfold histInv at hres
  omega

/-- Sample stroke used to instantiate witnesses. -/
def strokeA : Stroke := ⟨[⟨0, 0⟩], "#000000", Tool.pen, 5, 100⟩

/-- Second sample stroke used to instantiate witnesses. -/
def strokeB : Stroke := ⟨[⟨1, 1⟩], "#FF0000", Tool.pen, 5, 100⟩

/-- Third sample stroke used to instantiate witnesses. -/
def strokeC : Stroke := ⟨[⟨2, 2⟩], "#00FF00", Tool.highlighter, 5, 50⟩

lemma redo_after_commit (h : HistoryState) (s : Stroke) :
    handleRedo (commitStroke h s) = commitStroke h s := by
  unfold commitStroke handleRedo
  dsimp only
  rw [if_neg (by omega)]

lemma activeStrokes_mk_full (l : List Stroke) :
    activeStrokes ⟨l, (l.length : Int) - 1⟩ = l := by
  unfold activeStrokes jsSliceTo
  dsimp only
  rw [if_neg (by omega)]
  have h : ((l.length : Int) - 1 + 1).toNat = l.length := by omega
  rw [h, List.take_length]

lemma getLast_active_commit (h : HistoryState) (s : Stroke) :
    (activeStrokes (commitStroke h s)).getLast? = some s := by
  have hmk : commitStroke h s =
      ⟨jsSliceTo h.strokes (h.currentStrokeIndex + 1) ++ [s],
        ((jsSliceTo h.strokes (h.currentStrokeIndex + 1) ++ [s]).length : Int) - 1⟩ := rfl
  rw [hmk, activeStrokes_mk_full, List.getLast?_concat]

/-- C3: appending truncates the entries to the active prefix, appends the
stroke, and makes everything active; after an undo followed by an append,
redo is a no-op and the appended stroke is the last active one; the
concrete scenario append A, append B, undo, append C ends with entries
`[A, C]`, activeCount 2 and redo a no-op. -/
theorem append_truncates_and_prunes_redo (h : HistoryState) (s A B C : Stroke)
    (h1 : -1 ≤ h.currentStrokeIndex)
    (h2 : h.currentStrokeIndex ≤ (h.strokes.length : Int) - 1) :
    (commitStroke h s).strokes =
      h.strokes.take (h.currentStrokeIndex + 1).toNat ++ [s] ∧
    (commitStroke h s).currentStrokeIndex + 1 =
      ((commitStroke h s).strokes.length : Int) ∧
    handleRedo (commitStroke (handleUndo h) s) = commitStroke (handleUndo h) s ∧
    (activeStrokes (commitStroke (handleUndo h) s)).getLast? = some s ∧
    (execOps [.append A, .append B, .undo]).currentStrokeIndex + 1 = 1 ∧
    (execOps [.append A, .append B, .undo, .append C]).strokes = [A, C] ∧
    (execOps [.append A, .append B, .undo, .append C]).currentStrokeIndex + 1 = 2 ∧
    handleRedo (execOps [.append A, .append B, .undo, .append C]) =
      execOps [.append A, .append B, .undo, .append C] := by
  have hmid : execOps [.append A, .append B, .undo] = ⟨[A, B], 0⟩ := by
    unfold execOps initialHistory
    simp only [List.foldl, execOp]
    norm_num [commitStroke, handleUndo, jsSliceTo]
  have hstep : execOps [.append A, .append B, .undo, .append C] = ⟨[A, C], 1⟩ := by
    unfold execOps initialHistory
    simp only [List.foldl, execOp]
    norm_num [commitStroke, handleUndo, jsSliceTo]
  refine ⟨?_, ?_, redo_after_commit _ _, getLast_active_commit _ _, ?_, ?_, ?_, ?_⟩
  · unfold commitStroke jsSliceTo
    dsimp only
    rw [if_neg (by omega)]
  · unfold commitStroke
    dsimp only
    omega
  · rw [hmid]
    norm_num
  · rw [hstep]
  · rw [hstep]
    norm_num
  · rw [hstep]
    unfold handleRedo
    dsimp only
    norm_num

/-- Witness for C3 at the empty initial history and concrete strokes. -/
theorem append_truncates_witness :
    (-1 ≤ initialHistory.currentStrokeIndex ∧
      initialHistory.currentStrokeIndex ≤ (initialHistory.strokes.length : Int) - 1) ∧
    (commitStroke initialHistory strokeA).strokes =
      initialHistory.strokes.take (initialHistory.currentStrokeIndex + 1).toNat ++
        [strokeA] :=
  ⟨⟨by decide, by decide⟩,
    (append_truncates_and_prunes_redo initialHistory strokeA strokeA strokeB strokeC
      (by decide) (by decide)).1⟩

/-- C8: undo at `activeCount = 0` and redo at `activeCount = entries.length`
are no-ops, and neither operation ever modifies the entries list. -/
theorem undo_redo_boundary_noop (h : HistoryState) :
    (h.currentStrokeIndex + 1 = 0 → handleUndo h = h) ∧
    (h.currentStrokeIndex + 1 = (h.strokes.length : Int) → handleRedo h = h) ∧
    (handleUndo h).strokes = h.strokes ∧
    (handleRedo h).strokes = h.strokes := by
  refine ⟨?_, ?_, ?_, ?_⟩
  · intro hz
    unfold handleUndo
    rw [if_neg (by omega)]
  · intro hz
    unfold handleRedo
    rw [if_neg (by omega)]
  · unfold handleUndo
    split <;> rfl
  · unfold handleRedo
    split <;> rfl

/-- Witness for C8 at the empty initial history, where both bounds hold. -/
theorem undo_redo_boundary_noop_witness :
    handleUndo initialHistory = initialHistory ∧
    handleRedo initialHistory = initialHistory :=
  ⟨(undo_redo_boundary_noop initialHistory).1 (by decide),
    (undo_redo_boundary_noop initialHistory).2.1 (by decide)⟩

/-- C10: on states satisfying the bounds invariant, redo undoes undo when
`activeCount > 0`, undo undoes redo when `activeCount < entries.length`,
and the entries list is untouched in both compositions. -/
theorem undo_redo_inverse (h : HistoryState)
    (h1 : -1 ≤ h.currentStrokeIndex)
    (h2 : h.currentStrokeIndex ≤ (h.strokes.length : Int) - 1) :
    (0 < h.currentStrokeIndex + 1 →
      handleRedo (handleUndo h) = h ∧ (handleUndo h).strokes = h.strokes) ∧
    (h.currentStrokeIndex + 1 < (h.strokes.length : Int) →
      handleUndo (handleRedo h) = h ∧ (handleRedo h).strokes = h.strokes) := by
  constructor
  · intro hp
    have hu : handleUndo h = ⟨h.strokes, h.currentStrokeIndex - 1⟩ := by
      unfold handleUndo
      rw [if_pos (by omega)]
    refine ⟨?_, by rw [hu]⟩
    rw [hu]
    unfold handleRedo
    dsimp only
    rw [if_pos (by omega)]
    have he : h.currentStrokeIndex - 1 + 1 = h.currentStrokeIndex := by omega
    rw [he]
  · intro hp
    have hr : handleRedo h = ⟨h.strokes, h.currentStrokeIndex + 1⟩ := by
      unfold handleRedo
      rw [if_pos (by omega)]
    refine ⟨?_, by rw [hr]⟩
    rw [hr]
    unfold handleUndo
    dsimp only
    rw [if_pos (by omega)]
    have he : h.currentStrokeIndex + 1 - 1 = h.currentStrokeIndex := by omega
    rw [he]

/-- Witness for C10 at a one-stroke history with the stroke active. -/
theorem undo_redo_inverse_witness :
    handleRedo (handleUndo ⟨[strokeA], 0⟩) = (⟨[strokeA], 0⟩ : HistoryState) :=
  ((undo_redo_inverse ⟨[strokeA], 0⟩ (by decide) (by decide)).1 (by decide)).1

/-- Value of one hexadecimal digit, matching the character class
`[a-f\d]` of the `hexToRgb` regex together with its `i` flag. -/
def hexDigit (c : Char) : Option Nat :=
  if '0' ≤ c ∧ c ≤ '9' then some (c.toNat - '0'.toNat)
  else if 'a' ≤ c ∧ c ≤ 'f' then some (c.toNat - 'a'.toNat + 10)
  else if 'A' ≤ c ∧ c ≤ 'F' then some (c.toNat - 'A'.toNat + 10)
  else none

/-- `hexToRgb` of App.tsx lines 514-523: parse `#RRGGBB` (the `#` is
optional, case-insensitive) into channel values divided by 255, falling
back to black on malformed input. -/
def hexToRgb (hex : String) : ℚ × ℚ × ℚ :=
  let cs0 := hex.toList
  let cs := match cs0 with
    | '#' :: rest => rest
    | _ => cs0
  match cs with
  | [c1, c2, c3, c4, c5, c6] =>
    match hexDigit c1, hexDigit c2, hexDigit c3,
        hexDigit c4, hexDigit c5, hexDigit c6 with
    | some a, some b, some c, some d, some e, some f =>
      (((a * 16 + b : Nat) : ℚ) / 255, ((c * 16 + d : Nat) : ℚ) / 255,
        ((e * 16 + f : Nat) : ℚ) / 255)
    | _, _, _, _, _, _ => (0, 0, 0)
  | _ => (0, 0, 0)

/-- WebGL blend factors used by the app. -/
inductive BlendFactor where
  | one
  | srcAlpha
  | oneMinusSrcAlpha
deriving DecidableEq, Repr

/-- The draw state bound before stamping a stroke: blend function pair,
`u_color` uniform channels and `u_alpha` uniform. -/
structure DrawState where
  blendSrc : BlendFactor
  blendDst : BlendFactor
  red : ℚ
  green : ℚ
  blue : ℚ
  alpha : ℚ
deriving DecidableEq, Repr

/-- The draw state `redrawCanvas` configures for one replayed stroke from
that stroke's own stored tool/color/opacity (App.tsx lines 561-576). -/
def strokeDrawState (s : Stroke) : DrawState :=
  match s.tool with
  | .eraser => ⟨.srcAlpha, .oneMinusSrcAlpha, 1, 1, 1, 1⟩
  | .highlighter =>
    let rgb := hexToRgb s.color
    let alpha := s.opacity / 100 * (1 / 10)
    ⟨.one, .oneMinusSrcAlpha, rgb.1 * alpha, rgb.2.1 * alpha, rgb.2.2 * alpha, alpha⟩
  | .pen =>
    let rgb := hexToRgb s.color
    ⟨.srcAlpha, .oneMinusSrcAlpha, rgb.1, rgb.2.1, rgb.2.2, s.opacity / 100⟩

/-- Modelled from the spec (section 4.3): the per-tool blend/color/alpha
derivation as the specification words it, to be compared with
`strokeDrawState` read off the source. -/
def specDrawState (s : Stroke) : DrawState :=
  match s.tool with
  | .pen =>
    let rgb := hexToRgb s.color
    ⟨.srcAlpha, .oneMinusSrcAlpha, rgb.1, rgb.2.1, rgb.2.2, s.opacity / 100⟩
  | .highlighter =>
    let rgb := hexToRgb s.color
    let effAlpha := s.opacity / 100 * (1 / 10)
    ⟨.one, .oneMinusSrcAlpha, rgb.1 * effAlpha, rgb.2.1 * effAlpha,
      rgb.2.2 * effAlpha, effAlpha⟩
  | .eraser => ⟨.srcAlpha, .oneMinusSrcAlpha, 1, 1, 1, 1⟩

/-- C4: for every replayed stroke, the draw state derived by
`redrawCanvas` matches the specification's per-tool derivation: pen uses
alpha-over blending with the stroke color and `opacity/100`; highlighter
uses `(ONE, ONE_MINUS_SRC_ALPHA)` with alpha `(opacity/100) * 0.1` and
pre-multiplied channels; eraser uses alpha-over blending with opaque
white. -/
theorem redraw_draw_state_per_tool (s : Stroke) :
    strokeDrawState s = specDrawState s := by
  unfold strokeDrawState specDrawState
  cases s.tool <;> rfl

/-- C5: for integer opacity in `[0, 100]`, the highlighter's effective
alpha is `(opacity/100) * 0.1`, never exceeds `0.1`, is exactly `0.1` at
opacity 100 and `0` at opacity 0, and the submitted channels are the
stroke color channels multiplied by that alpha. -/
theorem highlighter_density_cap (n : Int) (s : Stroke)
    (h0 : 0 ≤ n) (h1 : n ≤ 100)
    (ht : s.tool = Tool.highlighter) (ho : s.opacity = (n : ℚ)) :
    (strokeDrawState s).alpha = s.opacity / 100 * (1 / 10) ∧
    (strokeDrawState s).alpha ≤ 1 / 10 ∧
    (n = 100 → (strokeDrawState s).alpha = 1 / 10) ∧
    (n = 0 → (strokeDrawState s).alpha = 0) ∧
    (strokeDrawState s).red = (hexToRgb s.color).1 * (strokeDrawState s).alpha ∧
    (strokeDrawState s).green = (hexToRgb s.color).2.1 * (strokeDrawState s).alpha ∧
    (strokeDrawState s).blue = (hexToRgb s.color).2.2 * (strokeDrawState s).alpha := by
  have hds : strokeDrawState s =
      ⟨.one, .oneMinusSrcAlpha, (hexToRgb s.color).1 * (s.opacity / 100 * (1 / 10)),
        (hexToRgb s.color).2.1 * (s.opacity / 100 * (1 / 10)),
        (hexToRgb s.color).2.2 * (s.opacity / 100 * (1 / 10)),
        s.opacity / 100 * (1 / 10)⟩ := by
    unfold strokeDrawState
    rw [ht]
  rw [hds]
  refine ⟨rfl, ?_, ?_, ?_, rfl, rfl, rfl⟩
  · rw [ho]
    have hn : (n : ℚ) ≤ 100 := by exact_mod_cast h1
    nlinarith
  · intro hn
    rw [ho, hn]
    norm_num
  · intro hn
    rw [ho, hn]
    norm_num

/-- Witness for C5 at a concrete highlighter stroke with opacity 50. -/
theorem highlighter_density_cap_witness :
    (strokeDrawState strokeC).alpha ≤ 1 / 10 :=
  (highlighter_density_cap 50 strokeC (by decide) (by decide) rfl (by norm_num [strokeC])).2.1

/-- JavaScript `Math.round` on a rational: round half toward positive
infinity. -/
def jsRound (q : ℚ) : Int := ⌊q + 1 / 2⌋

/-- One circular stamp emitted to the surface: the center passed to
`drawStrokeCircle` and the radius `lineWidth / 2`. -/
structure Stamp where
  center : QPoint
  radius : ℚ
deriving DecidableEq, Repr

/-- The stamps `redrawCanvas` emits when replaying one stroke (App.tsx
lines 578-599): a single stamp for a one-point stroke, otherwise a stamp
at every Bresenham point of every consecutive pair of stroke points. -/
def replayStroke (pixelRatio : ℚ) (s : Stroke) : List Stamp :=
  let lineWidth := s.lineWidth * pixelRatio
  match s.points with
  | [] => []
  | [p] => [⟨p, lineWidth / 2⟩]
  | ps =>
    (ps.zip ps.tail).flatMap fun pr =>
      (plotLine (jsRound pr.1.x) (jsRound pr.1.y)
          (jsRound pr.2.x) (jsRound pr.2.y)).map
        fun q => ⟨⟨(q.x : ℚ), (q.y : ℚ)⟩, lineWidth / 2⟩

/-- The component state of `DrawingCanvas` relevant to one pointer
interaction: the history, the live tool settings, the drawing flag and the
in-progress stroke buffer with the last point ref (App.tsx lines
494-512). -/
structure AppState where
  history : HistoryState
  isDrawing : Bool
  lastPoint : QPoint
  currentStroke : List QPoint
  selectedTool : Tool
  selectedColor : String
  size : ℚ
  penOpacity : ℚ
  highlighterOpacity : ℚ
  pixelRatio : ℚ
deriving DecidableEq, Repr

/-- `handlePointerDown` of App.tsx lines 912-921: set the drawing flag and
seed the in-progress buffer with the single event point, scaled by the
device pixel ratio relative to the canvas rect. -/
def handlePointerDownA (st : AppState) (clientX clientY rectLeft rectTop : ℚ) : AppState :=
  let x := (clientX - rectLeft) * st.pixelRatio
  let y := (clientY - rectTop) * st.pixelRatio
  { st with isDrawing := true, lastPoint := ⟨x, y⟩, currentStroke := [⟨x, y⟩] }

/-- `handlePointerMove` of App.tsx lines 923-936 (history-relevant part):
when drawing, append the event point to the in-progress buffer and update
the last point. -/
def handlePointerMoveA (st : AppState) (clientX clientY rectLeft rectTop : ℚ) : AppState :=
  if st.isDrawing then
    let x := (clientX - rectLeft) * st.pixelRatio
    let y := (clientY - rectTop) * st.pixelRatio
    { st with lastPoint := ⟨x, y⟩, currentStroke := st.currentStroke ++ [⟨x, y⟩] }
  else st

/-- The `Stroke` value `handlePointerUp` builds from the current buffer and
live tool settings (App.tsx lines 943-954). -/
def committedStroke (st : AppState) : Stroke :=
  { points := st.currentStroke,
    color := if st.selectedTool = Tool.eraser then "#FFFFFF" else st.selectedColor,
    tool := st.selectedTool,
    lineWidth := st.size,
    opacity :=
      match st.selectedTool with
      | .pen => st.penOpacity
      | .highlighter => st.highlighterOpacity
      | .eraser => 100 }

/-- `handlePointerUp` of App.tsx lines 938-964: clear the drawing flag;
when the buffer is non-empty, commit it as one stroke (truncating the redo
branch) and empty the buffer. -/
def handlePointerUpA (st : AppState) : AppState :=
  let st1 := { st with isDrawing := false }
  if 0 < st.currentStroke.length then
    { st1 with
        history := commitStroke st.history (committedStroke st),
        currentStroke := [] }
  else st1

/-- The initial component state of `DrawingCanvas` (App.tsx lines 494-512)
with device pixel ratio 1. -/
def initialAppState : AppState :=
  { history := initialHistory, isDrawing := false, lastPoint := ⟨0, 0⟩,
    currentStroke := [], selectedTool := Tool.pen, selectedColor := "#000000",
    size := 5, penOpacity := 100, highlighterOpacity := 10, pixelRatio := 1 }

/-- C6: with device pixel ratio 1, pointer-down at (10,10) immediately
followed by pointer-up, with the pen tool and size 5, commits exactly one
stroke whose point list is `[(10,10)]`, and replaying that stroke draws
exactly one stamp of radius 2.5 centered at (10,10). -/
theorem single_tap_commits_one_point_stroke :
    (handlePointerUpA (handlePointerDownA initialAppState 10 10 0 0)).history.strokes =
      [⟨[⟨10, 10⟩], "#000000", Tool.pen, 5, 100⟩] ∧
    (handlePointerUpA (handlePointerDownA initialAppState 10 10 0 0)).history.currentStrokeIndex
      = 0 ∧
    replayStroke 1 ⟨[⟨10, 10⟩], "#000000", Tool.pen, 5, 100⟩ =
      [⟨⟨10, 10⟩, 5 / 2⟩] := by
  have hdown : handlePointerDownA initialAppState 10 10 0 0 =
      { initialAppState with
          isDrawing := true, lastPoint := ⟨10, 10⟩, currentStroke := [⟨10, 10⟩] } := by
    unfold handlePointerDownA initialAppState
    norm_num
  refine ⟨?_, ?_, ?_⟩
  · rw [hdown]
    norm_num [handlePointerUpA, committedStroke, commitStroke, jsSliceTo,
      initialAppState, initialHistory]
    exact fun h => absurd h (by decide)
  · rw [hdown]
    norm_num [handlePointerUpA, committedStroke, commitStroke, jsSliceTo,
      initialAppState, initialHistory]
  · norm_num [replayStroke]

/-- Counterexample to C7 as stated: the interaction pointer-down (10,10)
then pointer-up with no intervening move does change the history — it
commits one stroke — rather than leaving it unchanged. -/
theorem no_move_interaction_commits :
    (handlePointerUpA (handlePointerDownA initialAppState 10 10 0 0)).history ≠
      initialAppState.history ∧
    (handlePointerUpA (handlePointerDownA initialAppState 10 10 0 0)).history.strokes.length
      = 1 := by
  have hdown : handlePointerDownA initialAppState 10 10 0 0 =
      { initialAppState with
          isDrawing := true, lastPoint := ⟨10, 10⟩, currentStroke := [⟨10, 10⟩] } := by
    unfold handlePointerDownA initialAppState
    norm_num
  rw [hdown]
  constructor
  · intro hcon
    norm_num [handlePointerUpA, committedStroke, commitStroke, jsSliceTo,
      initialAppState, initialHistory, HistoryState.mk.injEq] at hcon
  · norm_num [handlePointerUpA, committedStroke, commitStroke, jsSliceTo,
      initialAppState, initialHistory]

/-- Amended C7: the buffer is emptied on release only after being
committed; since pointer-down seeds the buffer with one point, an
interaction with no pointer-move events still commits a single-point
stroke built from that point, and History gains exactly that stroke. -/
theorem no_move_interaction_commits_single_point
    (st : AppState) (cx cy rl rt : ℚ) :
    (handlePointerUpA (handlePointerDownA st cx cy rl rt)).history =
      commitStroke st.history (committedStroke (handlePointerDownA st cx cy rl rt)) ∧
    (committedStroke (handlePointerDownA st cx cy rl rt)).points =
      [⟨(cx - rl) * st.pixelRatio, (cy - rt) * st.pixelRatio⟩] ∧
    (handlePointerUpA (handlePointerDownA st cx cy rl rt)).currentStroke = [] := by
  refine ⟨?_, rfl, ?_⟩ <;>
    simp [handlePointerUpA, handlePointerDownA, committedStroke]

end DoodleDo
